import Mathlib

/-!
Verification of the Reversi engine (`board.py`, `ai.py`).

The Python source is shallowly embedded: the grid is a list of rows of
`Square`, coordinates are integers (the source validates signed coordinates),
and every function below mirrors the control flow of the corresponding Python
method. The while-loops of the source are modelled with explicit fuel that is
always large enough for the bounded walks they perform.
-/

namespace Reversi

/-- `Square` enum from `board.py`: white = 0, black = 1, blank = 2. -/
inductive Square where
  | white
  | black
  | blank
deriving DecidableEq, Repr

/-- Numeric encoding of `Square` used by the source (`white = 0`, `black = 1`,
`blank = 2`); `who_won` returns `-1` outside this range. -/
def squareCode : Square → Int
  | Square.white => 0
  | Square.black => 1
  | Square.blank => 2

abbrev Grid := List (List Square)

/-- `Board` from `board.py`: the grid plus the turn field. -/
structure Board where
  board : Grid
  turn : Square
deriving DecidableEq, Repr

/-- A grid is well formed when it is square (every row as long as the row
list), as the data model prescribes (an N x N grid). -/
def GridWF (g : Grid) : Prop := ∀ row ∈ g, row.length = g.length

/-- A board is well formed when its grid is. -/
def Board.WF (b : Board) : Prop := GridWF b.board

instance (g : Grid) : Decidable (GridWF g) := by
  unfold GridWF; infer_instance

instance (b : Board) : Decidable b.WF := by
  unfold Board.WF; infer_instance

/-- Reading a cell; out-of-range reads only happen after a bounds check in the
source, so the default value is never observed. -/
def cellAt (g : Grid) (r c : Int) : Square :=
  (g.getD r.toNat []).getD c.toNat Square.blank

/-- Writing a cell (Python `self.board[r][c] = v`). -/
def setCell (g : Grid) (r c : Int) (v : Square) : Grid :=
  g.set r.toNat ((g.getD r.toNat []).set c.toNat v)

/-- The bounds test of the ray walk in `_validate_flip` (lines 196-197):
`cur_r < len(board) and cur_r >= 0 and cur_c < len(board[0]) and cur_c >= 0`. -/
def inBoundsRC (g : Grid) (r c : Int) : Bool :=
  decide (r < g.length) && decide (0 ≤ r) &&
    decide (c < (g.headD []).length) && decide (0 ≤ c)

/-- `Board._validate_input` (lines 97-116): bounds (both coordinates checked
against the row count), then the turn, then blankness of the target square. -/
def validateInput (b : Board) (r c : Int) (team : Square) : Bool :=
  if r < 0 ∨ (b.board.length : Int) ≤ r ∨ c < 0 ∨ (b.board.length : Int) ≤ c then
    false
  else if b.turn ≠ team then
    false
  else if cellAt b.board r c ≠ Square.blank then
    false
  else
    true

/-- The eight ray directions of `_validate_flip`, in the order the nested
`for dr / for dc` loops produce them (skipping `(0, 0)`). -/
def dirList : List (Int × Int) :=
  [(-1, -1), (-1, 0), (-1, 1), (0, -1), (0, 1), (1, -1), (1, 0), (1, 1)]

/-- The inner while-loop of `_validate_flip` (lines 196-218): walk one ray.
`curR, curC` is the current cell, `fo` records whether an opposing piece was
seen (`found_other`), `k` counts the steps taken from the candidate cell.
Returns the step index of the capturing same-team cell, if the walk finds one.
Fuel bounds the walk; it is chosen large enough at every call site. -/
def findCapture (g : Grid) (team : Square) (dr dc : Int) :
    Nat → Int → Int → Bool → Nat → Option Nat
  | 0, _, _, _, _ => none
  | fuel + 1, curR, curC, fo, k =>
    if inBoundsRC g curR curC then
      let s := cellAt g curR curC
      if s = Square.blank then none
      else if s = team then
        if fo then some k else none
      else findCapture g team dr dc fuel (curR + dr) (curC + dc) true (k + 1)
    else none

/-- Fuel sufficient for any ray walk on `g`. -/
def rayFuel (g : Grid) : Nat := g.length + (g.headD []).length + 1

/-- One direction of `_validate_flip`, starting the walk at the neighbour of
the candidate cell exactly as lines 193-195 do. -/
def rayCapture (g : Grid) (team : Square) (r c dr dc : Int) : Option Nat :=
  findCapture g team dr dc (rayFuel g) (r + dr) (c + dc) false 1

/-- The capture run one direction contributes (lines 203-210): the cells at
steps `k-1, k-2, ..., 1` back from the capturing cell, in the order the
back-walk appends them. -/
def rayRun (g : Grid) (team : Square) (r c dr dc : Int) : List (Int × Int) :=
  match rayCapture g team r c dr dc with
  | none => []
  | some k =>
    (List.range (k - 1)).map fun j =>
      (r + (((k - 1 - j : Nat)) : Int) * dr, c + (((k - 1 - j : Nat)) : Int) * dc)

/-- The de-duplicated flip set of `_validate_flip` (line 221:
`set(tuple(i) for i in flip_pieces)`), as a list of distinct cells. -/
def flipSetList (g : Grid) (team : Square) (r c : Int) : List (Int × Int) :=
  ((dirList.map fun d => rayRun g team r c d.1 d.2).flatten).dedup

/-- `_validate_flip` in score-keeping mode returns the size of the flip set
(line 224). -/
def validateFlipScore (g : Grid) (team : Square) (r c : Int) : Nat :=
  (flipSetList g team r c).length

/-- `_validate_flip` in legality mode (`keep_score = False`) returns 1 from
inside the loop as soon as one direction captures, otherwise 0. -/
def validateFlipQuick (g : Grid) (team : Square) (r c : Int) : Bool :=
  dirList.any fun d => (rayCapture g team r c d.1 d.2).isSome

/-- `Board.flip_score` (lines 149-152). -/
def flip_score (b : Board) (r c : Int) (team : Square) : Nat :=
  if validateInput b r c team then validateFlipScore b.board team r c else 0

/-- `Board.can_flip` (lines 155-162). -/
def can_flip (b : Board) (r c : Int) (team : Square) : Bool :=
  validateInput b r c team && validateFlipQuick b.board team r c

/-- `Board.can_move` (lines 226-239): scan the whole grid for a flippable
square (both coordinate ranges use the row count). -/
def can_move (b : Board) (team : Square) : Bool :=
  (List.range b.board.length).any fun r =>
    (List.range b.board.length).any fun c => can_flip b (r : Int) (c : Int) team

/-- `Board._flip_pieces` (lines 166-171) on one piece: white becomes black,
anything else becomes white. -/
def flipCell (g : Grid) (p : Int × Int) : Grid :=
  if cellAt g p.1 p.2 = Square.white then setCell g p.1 p.2 Square.black
  else setCell g p.1 p.2 Square.white

/-- `Board._flip_pieces` over the flip set. -/
def applyFlips (g : Grid) (ps : List (Int × Int)) : Grid :=
  ps.foldl flipCell g

/-- `Board._set_next_turn` (lines 118-142): probe each side by temporarily
overwriting the turn, restore it, then advance. -/
def set_next_turn (b : Board) : Board :=
  let blackAble := can_move { b with turn := Square.black } Square.black
  let whiteAble := can_move { b with turn := Square.white } Square.white
  let t0 := if ¬blackAble ∧ ¬whiteAble then Square.blank else b.turn
  let t1 :=
    if t0 = Square.white then
      if blackAble then Square.black else Square.white
    else if t0 = Square.black then
      if whiteAble then Square.white else Square.black
    else t0
  { b with turn := t1 }

/-- `Board.add_piece` (lines 76-95): validate, flip (the flips are applied
even when the score is zero, over an empty set), place the piece, advance the
turn. Returns the updated board and the number of points scored. -/
def add_piece (b : Board) (r c : Int) (team : Square) : Board × Nat :=
  if validateInput b r c team then
    let fl := flipSetList b.board b.turn r c
    let g2 := applyFlips b.board fl
    if fl.length = 0 then ({ board := g2, turn := b.turn }, 0)
    else
      let b2 : Board := { board := setCell g2 r c b.turn, turn := b.turn }
      (set_next_turn b2, fl.length)
  else (b, 0)

/-- `Board.num_pieces` (lines 266-272). -/
def num_pieces (b : Board) (team : Square) : Nat :=
  ((List.range b.board.length).map fun r =>
    ((List.range b.board.length).map fun c =>
      if cellAt b.board (r : Int) (c : Int) = team then 1 else 0).sum).sum

/-- The white-minus-black count computed by the loop of `who_won`
(lines 252-257). -/
def whiteAdvantage (b : Board) : Int :=
  ((List.range b.board.length).map fun r =>
    ((List.range b.board.length).map fun c =>
      if cellAt b.board (r : Int) (c : Int) = Square.white then (1 : Int)
      else if cellAt b.board (r : Int) (c : Int) = Square.black then -1
      else 0).sum).sum

/-- `Board.who_won` (lines 242-263), with squares in the source encoding. -/
def who_won (b : Board) : Int :=
  if b.turn ≠ Square.blank then -1
  else if whiteAdvantage b = 0 then squareCode Square.blank
  else if 0 < whiteAdvantage b then squareCode Square.white
  else squareCode Square.black

/-- `Board.get_squares_left` (lines 63-70). -/
def get_squares_left (b : Board) : Nat :=
  (b.board.map fun row => (row.filter fun s => s = Square.blank).length).sum

/-- `Board.get_size` (lines 55-57). -/
def get_size (b : Board) : Nat := b.board.length

/-- The initial grid of `Board.__init__` (lines 20-23): all blank, then the
two chained assignments placing the four centre pieces. -/
def initGrid (n : Nat) : Grid :=
  let g0 : Grid := List.replicate n (List.replicate n Square.blank)
  let h : Int := (n / 2 : Nat)
  setCell (setCell (setCell (setCell g0 h h Square.white)
    (h - 1) (h - 1) Square.white) h (h - 1) Square.black) (h - 1) h Square.black

/-- `Board.makeboard` (lines 29-31): fresh board, white to move. -/
def makeboard (n : Nat) : Board :=
  { board := initGrid n, turn := Square.white }

/-- A move candidate `[r, c, score]` as built by `ai._get_moves`. -/
structure MoveT where
  r : Int
  c : Int
  pts : Nat
deriving DecidableEq, Repr

/-- Stable insertion into a key-descending list: the element goes in front of
the first entry whose key does not exceed its own, so earlier entries win
ties. Together with `sortDesc` this realizes the stable descending sort of
Python `sorted(..., reverse=True)`. -/
def insertDesc {α : Type} (key : α → Nat) (a : α) : List α → List α
  | [] => [a]
  | b :: t => if key b ≤ key a then a :: b :: t else b :: insertDesc key a t

/-- Stable sort by key descending (the semantics of Python `sorted` with
`reverse=True`), written with structural recursion. -/
def sortDesc {α : Type} (key : α → Nat) : List α → List α
  | [] => []
  | a :: t => insertDesc key a (sortDesc key t)

/-- The row-major scan of `ai._get_moves` (lines 176-183): every cell with a
non-zero flip score, in the order the nested loops discover them. -/
def rawMoves (b : Board) (team : Square) : List MoveT :=
  (List.range (get_size b)).flatMap fun (r : Nat) =>
    (List.range (get_size b)).filterMap fun (c : Nat) =>
      let score := flip_score b (r : Int) (c : Int) team
      if score ≠ 0 then some ⟨(r : Int), (c : Int), score⟩ else none

/-- `ai._get_moves` (lines 166-185): the row-major scan followed by a stable
sort by score descending (Python `sorted` with `reverse=True`). -/
def get_moves (b : Board) (team : Square) : List MoveT :=
  sortDesc MoveT.pts (rawMoves b team)

/-- The third each index lands in (`ai._weight_moves_thirds` lines 148-154):
`i * 3 <= len` picks the first weight, `i * 1.5 <= len` (exactly
`3 * i <= 2 * len`) the second, anything later the third. -/
def thirdWeight (len i w0 w1 w2 : Nat) : Nat :=
  if 3 * i ≤ len then w0 else if 3 * i ≤ 2 * len then w1 else w2

/-- The in-place reweighting of the move scores (`valid_moves[i][2] *= w`). -/
def weightScores (ms : List MoveT) (w0 w1 w2 : Nat) : List MoveT :=
  ms.mapIdx fun i m => { m with pts := m.pts * thirdWeight ms.length i w0 w1 w2 }

/-- Running cumulative sum (`cumulative_weights`). -/
def cumFrom : Nat → List Nat → List Nat
  | _, [] => []
  | t, w :: ws => (t + w) :: cumFrom (t + w) ws

/-- `bisect.bisect` on a nondecreasing list: the number of entries at most the
probe (the insertion point after any equal entries). -/
def bisectRight (l : List Nat) (x : ℚ) : Nat :=
  l.countP fun (v : Nat) => decide ((v : ℚ) ≤ x)

/-- The index `_weight_moves_thirds` selects for a draw `x` (the Python draw
is `random.random() * total`), including the overflow clamp of lines 161-162. -/
def wmtIndex (ms : List MoveT) (w0 w1 w2 : Nat) (x : ℚ) : Nat :=
  let cw := cumFrom 0 ((weightScores ms w0 w1 w2).map MoveT.pts)
  let j := bisectRight cw x
  if j = ms.length then j - 1 else j

/-- `ai._weight_moves_thirds` (lines 135-163). On an empty move list the
Python indexing `valid_moves[-1]` raises; this is `none`. The returned move
carries its reweighted score, as in the source. -/
def weight_moves_thirds (ms : List MoveT) (w0 w1 w2 : Nat) (x : ℚ) :
    Option MoveT :=
  match ms with
  | [] => none
  | _ :: _ => (weightScores ms w0 w1 w2)[wmtIndex ms w0 w1 w2 x]?

/-- `ai.weak_move` (lines 38-51): uniformly random valid move; on an empty
move list `random.randrange(0, 0)` raises, modelled as `none`. The random
draw is supplied as a number reduced modulo the list length. -/
def weak_move (b : Board) (rand : Nat) : Option MoveT :=
  match get_moves b Square.black with
  | [] => none
  | ms => ms[rand % ms.length]?

/-- `ai.novice_move` (lines 15-35): invert scores against the maximum
(`valid_moves[0][2]`, raising on an empty list), then weighted-thirds
sampling with weights `[2, 3, 4]`. -/
def novice_move (b : Board) (x : ℚ) : Option MoveT :=
  match get_moves b Square.black with
  | [] => none
  | m0 :: rest =>
    let large := m0.pts
    let adjusted := (m0 :: rest).map fun m => { m with pts := large - m.pts }
    weight_moves_thirds adjusted 2 3 4 x

/-- `ai.moderate_move` (lines 54-71): weighted-thirds sampling with weights
`[5, 2, 0]` on the raw scores. -/
def moderate_move (b : Board) (x : ℚ) : Option MoveT :=
  weight_moves_thirds (get_moves b Square.black) 5 2 0 x

/-- Applying one candidate black move inside `strong_move_recurse`
(line 114-115: deep copy then `add_piece`). -/
def branchStep (b : Board) (m : MoveT) : Board :=
  (add_piece b m.r m.c Square.black).1

/-- The `while new_board.get_turn() == Square.white` loop of
`strong_move_recurse` (lines 119-126): play white's top-scoring move until
the turn leaves white, setting the remaining-depth variable to 1 whenever the
board goes terminal. On an empty white move list `white_moves[0]` raises,
modelled as `none`. Fuel bounds the loop; each iteration fills a square, so
`get_squares_left + 1` at the call site is always enough. -/
def applyWhites : Nat → Board → Nat → Option (Board × Nat)
  | 0, _, _ => none
  | fuel + 1, b, nml =>
    if b.turn = Square.white then
      match get_moves b Square.white with
      | [] => none
      | wm :: _ =>
        let b2 := (add_piece b wm.r wm.c Square.white).1
        let nml2 := if b2.turn = Square.blank then 1 else nml
        applyWhites fuel b2 nml2
    else some (b, nml)

/-- The candidate loop of `strong_move_recurse` (lines 113-128), faithful to
the source: `num_moves_left` is a single Python local, so the value threaded
out of one candidate (possibly lowered to 1 on a terminal branch) is the value
the next candidate starts from. Returns the final value of the variable and
the accumulated `[move, count]` results. -/
def goCandidates (recurse : Board → Nat → MoveT → Option (Option MoveT × Nat))
    (b : Board) : Nat → List MoveT → Option (Nat × List (MoveT × Nat))
  | nml, [] => some (nml, [])
  | nml, m :: rest =>
    let b2 := branchStep b m
    let nml1 := if b2.turn = Square.blank then 1 else nml
    match applyWhites (get_squares_left b2 + 1) b2 nml1 with
    | none => none
    | some (b3, nml2) =>
      match recurse b3 (nml2 - 1) m with
      | none => none
      | some (_, cnt) =>
        match goCandidates recurse b nml2 rest with
        | none => none
        | some (nmlF, acc) => some (nmlF, (m, cnt) :: acc)

/-- `ai.strong_move_recurse` (lines 91-132). The outer fuel dominates the
recursion depth (`num_moves_left` only ever decreases); sorting the results is
the stable descending sort of line 130, and `sorted_moves[0]` on an empty
result list raises, modelled as `none`. -/
def strongRecAux : Nat → Board → Nat → Option MoveT → Option (Option MoveT × Nat)
  | 0, _, _, _ => none
  | fuel + 1, b, nml, move =>
    if nml = 0 then some (move, num_pieces b Square.black)
    else
      match goCandidates (fun b3 d m => strongRecAux fuel b3 d (some m)) b nml
          (get_moves b Square.black) with
      | none => none
      | some (_, results) =>
        match sortDesc Prod.snd results with
        | [] => none
        | best :: _ => some (some best.1, best.2)

/-- `ai.strong_move` (lines 74-88): three plies of lookahead. -/
def strong_move (b : Board) : Option MoveT :=
  (strongRecAux 4 b 3 none).bind fun p => p.1

/-- The candidate loop as claim C4 reads it: the depth reduction triggered by
a terminal branch stays local to that branch, every sibling starting from the
level's original `nml`. -/
def goCandidatesSpec (recurse : Board → Nat → MoveT → Option (Option MoveT × Nat))
    (b : Board) (nml : Nat) : List MoveT → Option (List (MoveT × Nat))
  | [] => some []
  | m :: rest =>
    let b2 := branchStep b m
    let nml1 := if b2.turn = Square.blank then 1 else nml
    match applyWhites (get_squares_left b2 + 1) b2 nml1 with
    | none => none
    | some (b3, nml2) =>
      match recurse b3 (nml2 - 1) m with
      | none => none
      | some (_, cnt) =>
        match goCandidatesSpec recurse b nml rest with
        | none => none
        | some acc => some ((m, cnt) :: acc)

/-- `strong_move_recurse` as claim C4 reads it (siblings unaffected). -/
def strongRecSpecAux : Nat → Board → Nat → Option MoveT → Option (Option MoveT × Nat)
  | 0, _, _, _ => none
  | fuel + 1, b, nml, move =>
    if nml = 0 then some (move, num_pieces b Square.black)
    else
      match goCandidatesSpec (fun b3 d m => strongRecSpecAux fuel b3 d (some m)) b nml
          (get_moves b Square.black) with
      | none => none
      | some results =>
        match sortDesc Prod.snd results with
        | [] => none
        | best :: _ => some (some best.1, best.2)

/-- The candidate loop rephrased with an explicit seen-a-terminal-branch flag:
before the flag is set a candidate starts from the level's original `nml`,
after it every candidate starts from 1 (hence recurses with depth 0). Used to
state what the threading in `goCandidates` amounts to. -/
def goCandidatesFlag (recurse : Board → Nat → MoveT → Option (Option MoveT × Nat))
    (b : Board) (nml : Nat) : Bool → List MoveT → Option (Bool × List (MoveT × Nat))
  | seenT, [] => some (seenT, [])
  | seenT, m :: rest =>
    let b2 := branchStep b m
    let nmlHere := if seenT then 1 else nml
    let nml1 := if b2.turn = Square.blank then 1 else nmlHere
    match applyWhites (get_squares_left b2 + 1) b2 nml1 with
    | none => none
    | some (b3, nml2) =>
      match recurse b3 (nml2 - 1) m with
      | none => none
      | some (_, cnt) =>
        match goCandidatesFlag recurse b nml (seenT || decide (b3.turn = Square.blank)) rest with
        | none => none
        | some (fl, acc) => some (fl, (m, cnt) :: acc)

/-- The opposing side (the spec's "opposing-side cells"). -/
def oppSide : Square → Square
  | Square.white => Square.black
  | Square.black => Square.white
  | Square.blank => Square.blank

/-- The cell `i` steps along a ray from `(r, c)`. -/
def stepPos (r c dr dc : Int) (i : Nat) : Int × Int :=
  (r + (i : Int) * dr, c + (i : Int) * dc)

/-- Membership in the N x N grid of the data model. -/
def inGrid (n : Nat) (p : Int × Int) : Prop :=
  0 ≤ p.1 ∧ p.1 < (n : Int) ∧ 0 ≤ p.2 ∧ p.2 < (n : Int)

instance (n : Nat) (p : Int × Int) : Decidable (inGrid n p) := by
  unfold inGrid; infer_instance

/-- Modelled from the spec: along the ray of direction `(dr, dc)` from
`(r, c)`, the cell `k` steps out is the acting side's, every cell strictly
between is an in-grid opposing-side cell, and there is at least one such cell
(`2 ≤ k`). -/
def captureAt (g : Grid) (team : Square) (r c dr dc : Int) (k : Nat) : Prop :=
  2 ≤ k ∧ inGrid g.length (stepPos r c dr dc k) ∧
    cellAt g (stepPos r c dr dc k).1 (stepPos r c dr dc k).2 = team ∧
    ∀ j < k, 1 ≤ j →
      inGrid g.length (stepPos r c dr dc j) ∧
        cellAt g (stepPos r c dr dc j).1 (stepPos r c dr dc j).2 = oppSide team

instance (g : Grid) (team : Square) (r c dr dc : Int) (k : Nat) :
    Decidable (captureAt g team r c dr dc k) := by
  unfold captureAt; infer_instance

/-- Modelled from the spec: the distance to the first same-side cell, when the
direction contributes a capture run (the distance is unique, so a bounded
search finds it). -/
def specRayK (g : Grid) (team : Square) (r c dr dc : Int) : Option Nat :=
  (List.range (rayFuel g + 2)).find? fun k => decide (captureAt g team r c dr dc k)

/-- Modelled from the spec: the capture run of one direction, as the set of
cells strictly between the candidate and the first same-side cell. -/
def specDirCapture (g : Grid) (team : Square) (r c dr dc : Int) :
    Finset (Int × Int) :=
  match specRayK g team r c dr dc with
  | none => ∅
  | some k => (Finset.Icc 1 (k - 1)).image (stepPos r c dr dc)

/-- Modelled from the spec: the union of the capture runs of the eight
directions, so a cell reachable from two directions counts once. -/
def specCaptureSet (g : Grid) (team : Square) (r c : Int) : Finset (Int × Int) :=
  (dirList.map fun d => specDirCapture g team r c d.1 d.2).foldr (· ∪ ·) ∅

/-- A side has a legal move somewhere on the grid: an in-bounds blank cell
whose capture score for that side is positive. This depends only on the grid
and the side, never on the turn field. -/
def specHasMove (g : Grid) (team : Square) : Prop :=
  ∃ r < g.length, ∃ c < g.length,
    cellAt g (r : Int) (c : Int) = Square.blank ∧
      0 < validateFlipScore g team (r : Int) (c : Int)

instance (g : Grid) (team : Square) : Decidable (specHasMove g team) := by
  unfold specHasMove; infer_instance

/-- The fresh 4 x 4 board, used as a concrete input below. -/
def init4 : Board := makeboard 4

/-- A late-game 4 x 4 position with black to move, two squares free. -/
def lateBoard : Board :=
  { board := [[Square.black, Square.white, Square.blank, Square.blank],
              [Square.white, Square.white, Square.white, Square.black],
              [Square.white, Square.white, Square.black, Square.black],
              [Square.black, Square.black, Square.black, Square.black]],
    turn := Square.black }

/-- A finished 4 x 4 game (no side can move) won by white 10 to 6. -/
def wonBoard : Board :=
  { board := [[Square.white, Square.white, Square.white, Square.white],
              [Square.black, Square.white, Square.white, Square.white],
              [Square.black, Square.black, Square.white, Square.white],
              [Square.black, Square.black, Square.black, Square.white]],
    turn := Square.blank }

/-- A score-sorted three-element move list, used as a concrete input below. -/
def exMoves : List MoveT := [⟨0, 0, 3⟩, ⟨0, 1, 2⟩, ⟨0, 2, 1⟩]

/-! ## Basic lemmas -/

theorem validateInput_iff (b : Board) (r c : Int) (team : Square) :
    validateInput b r c team = true ↔
      0 ≤ r ∧ r < (b.board.length : Int) ∧ 0 ≤ c ∧ c < (b.board.length : Int) ∧
        b.turn = team ∧ cellAt b.board r c = Square.blank := by
  unfold validateInput
  split_ifs with h1 h2 h3
  · simp only [Bool.false_eq_true, false_iff]
    rintro ⟨hr0, hr, hc0, hc, -, -⟩
    omega
  · simp only [Bool.false_eq_true, false_iff]
    rintro ⟨-, -, -, -, ht, -⟩
    exact h2 ht
  · simp only [Bool.false_eq_true, false_iff]
    rintro ⟨-, -, -, -, -, hb⟩
    exact h3 hb
  · simp only [true_iff]
    push_neg at h1 h2 h3
    exact ⟨by omega, by omega, by omega, by omega, h2, h3⟩

theorem validateInput_turn_ne (b : Board) (r c : Int) (team : Square)
    (h : b.turn ≠ team) : validateInput b r c team = false := by
  rw [← Bool.not_eq_true, validateInput_iff]
  rintro ⟨-, -, -, -, ht, -⟩
  exact h ht

/-! ## C10: a fresh board gives white the first move -/

/-- C10: for every even size, `makeboard` produces a board whose turn field is
white (light): light moves first on a fresh board. -/
theorem makeboard_white_first (n : Nat) (h : Even n) :
    (makeboard n).turn = Square.white := rfl

/-- Witness for C10 at size 4. -/
theorem makeboard_white_first_witness :
    Even 4 ∧ (makeboard 4).turn = Square.white :=
  ⟨by decide, makeboard_white_first 4 (by decide)⟩

/-! ## C3: a rejected placement is a no-op -/

/-- C3: whenever a placement attempt is illegal — coordinates out of range,
target square occupied, a side other than the side to move, or zero cells
captured — `add_piece` returns 0 and leaves the grid and the turn exactly as
they were. -/
theorem add_piece_rejected_noop (b : Board) (r c : Int) (team : Square)
    (h : r < 0 ∨ (b.board.length : Int) ≤ r ∨ c < 0 ∨ (b.board.length : Int) ≤ c ∨
      cellAt b.board r c ≠ Square.blank ∨ b.turn ≠ team ∨
      flip_score b r c team = 0) :
    add_piece b r c team = (b, 0) := by
  by_cases hv : validateInput b r c team = true
  · obtain ⟨hr0, hr, hc0, hc, ht, hblank⟩ := (validateInput_iff b r c team).mp hv
    have hs : flip_score b r c team = 0 := by
      rcases h with h | h | h | h | h | h | h
      · omega
      · omega
      · omega
      · omega
      · exact absurd hblank h
      · exact absurd ht h
      · exact h
    have hscore : validateFlipScore b.board team r c = 0 := by
      unfold flip_score at hs
      rwa [if_pos hv] at hs
    have hfl : flipSetList b.board b.turn r c = [] := by
      rw [ht]
      exact List.length_eq_zero.mp hscore
    unfold add_piece
    rw [if_pos hv]
    simp only [hfl, List.length_nil, if_pos rfl]
    rfl
  · unfold add_piece
    rw [if_neg hv]

/-- Witness for C3: placing white at the empty in-range corner (0, 0) of the
fresh board captures nothing, and the call leaves the board untouched. -/
theorem add_piece_rejected_noop_witness :
    flip_score init4 0 0 Square.white = 0 ∧
      add_piece init4 0 0 Square.white = (init4, 0) :=
  ⟨by decide, add_piece_rejected_noop init4 0 0 Square.white (by decide)⟩

/-! ## C9: every strategy plays black and fails when black is not to move -/

theorem get_moves_turn_ne (b : Board) (team : Square) (h : b.turn ≠ team) :
    get_moves b team = [] := by
  have hraw : rawMoves b team = [] := by
    unfold rawMoves
    simp [flip_score, validateInput_turn_ne b _ _ team h]
  unfold get_moves
  rw [hraw]
  rfl

/-- C9: all four strategy entry points enumerate moves for black only; on a
board where black is not the side to move the enumerated move list is empty
and every strategy signals failure (a raised error in the source) instead of
returning a move. -/
theorem strategies_require_black_turn (b : Board) (h : b.turn ≠ Square.black)
    (rand : Nat) (x y : ℚ) :
    get_moves b Square.black = [] ∧ weak_move b rand = none ∧
      novice_move b x = none ∧ moderate_move b y = none ∧
      strong_move b = none := by
  have hm := get_moves_turn_ne b Square.black h
  refine ⟨hm, ?_, ?_, ?_, ?_⟩
  · unfold weak_move
    rw [hm]
  · unfold novice_move
    rw [hm]
  · unfold moderate_move
    rw [hm]
    rfl
  · unfold strong_move
    have h4 : strongRecAux 4 b 3 none = none := by
      show strongRecAux (3 + 1) b 3 none = none
      rw [strongRecAux]
      rw [if_neg (by omega), hm]
      simp [goCandidates, sortDesc]
    rw [h4]
    rfl

/-! ## Capture-scan lemmas shared by C5, C2 and C1 -/

theorem findCapture_le (g : Grid) (team : Square) (dr dc : Int) :
    ∀ (fuel : Nat) (p q : Int) (fo : Bool) (k K : Nat),
      findCapture g team dr dc fuel p q fo k = some K →
        k ≤ K ∧ (fo = false → k < K) := by
  intro fuel
  induction fuel with
  | zero => intro p q fo k K h; simp [findCapture] at h
  | succ fuel ih =>
    intro p q fo k K h
    rw [findCapture] at h
    by_cases hb : inBoundsRC g p q = true
    · rw [if_pos hb] at h
      simp only at h
      by_cases hblank : cellAt g p q = Square.blank
      · rw [if_pos hblank] at h
        cases h
      · rw [if_neg hblank] at h
        by_cases hteam : cellAt g p q = team
        · rw [if_pos hteam] at h
          by_cases hfo : fo = true
          · rw [if_pos hfo] at h
            cases h
            exact ⟨Nat.le_refl _, fun hc => by simp [hc] at hfo⟩
          · rw [if_neg hfo] at h
            cases h
        · rw [if_neg hteam] at h
          obtain ⟨h1, -⟩ := ih _ _ _ _ _ h
          exact ⟨by omega, fun _ => by omega⟩
    · rw [if_neg hb] at h
      cases h

theorem rayCapture_two_le (g : Grid) (team : Square) (r c dr dc : Int) (K : Nat)
    (h : rayCapture g team r c dr dc = some K) : 2 ≤ K := by
  obtain ⟨-, h2⟩ := findCapture_le g team dr dc _ _ _ _ _ _ h
  have := h2 rfl
  omega

theorem rayRun_ne_nil_iff (g : Grid) (team : Square) (r c dr dc : Int) :
    rayRun g team r c dr dc ≠ [] ↔ (rayCapture g team r c dr dc).isSome := by
  unfold rayRun
  cases hc : rayCapture g team r c dr dc with
  | none => simp
  | some K =>
    have h2 := rayCapture_two_le g team r c dr dc K hc
    simp only [ne_eq, List.map_eq_nil_iff, List.range_eq_nil, Option.isSome_some,
      iff_true]
    omega

theorem quick_iff_score_pos (g : Grid) (team : Square) (r c : Int) :
    validateFlipQuick g team r c = true ↔ 0 < validateFlipScore g team r c := by
  unfold validateFlipQuick validateFlipScore flipSetList
  rw [List.any_eq_true]
  rw [List.length_pos, ne_eq, List.dedup_eq_nil]
  constructor
  · rintro ⟨d, hd, hsome⟩
    intro hnil
    rw [List.flatten_eq_nil_iff] at hnil
    have hmem : rayRun g team r c d.1 d.2 ∈ dirList.map fun d => rayRun g team r c d.1 d.2 :=
      List.mem_map_of_mem _ hd
    have := hnil _ hmem
    exact (rayRun_ne_nil_iff g team r c d.1 d.2).mpr hsome this
  · intro hne
    by_contra hall
    push_neg at hall
    apply hne
    rw [List.flatten_eq_nil_iff]
    intro l hl
    rw [List.mem_map] at hl
    obtain ⟨d, hd, rfl⟩ := hl
    by_contra hlne
    have := (rayRun_ne_nil_iff g team r c d.1 d.2).mp hlne
    exact absurd this (by simpa using hall d hd)

theorem can_flip_iff (b : Board) (r c : Int) (team : Square) :
    can_flip b r c team = true ↔
      validateInput b r c team = true ∧ 0 < validateFlipScore b.board team r c := by
  unfold can_flip
  rw [Bool.and_eq_true, quick_iff_score_pos]

/-! ## C5: can_move depends on the turn field, not only on the grid -/

/-- Counterexample for C5 as stated: on the fresh board (white to move) black
has a legal move on the grid, yet `can_move` for black answers false, because
the validation path compares the queried side against the turn field. -/
theorem can_move_turn_dependent_cex :
    can_move init4 Square.black = false ∧ specHasMove init4.board Square.black :=
  ⟨by decide, by decide⟩

/-- C5 as amended: `can_move(board, side)` is true exactly when the queried
side is the side the turn field designates and some in-bounds empty cell
captures at least one piece for it; for any other side it answers false
regardless of the grid. -/
theorem can_move_iff_turn_and_move (b : Board) (team : Square) :
    can_move b team = true ↔ b.turn = team ∧ specHasMove b.board team := by
  unfold can_move specHasMove
  rw [List.any_eq_true]
  constructor
  · rintro ⟨r, hr, h2⟩
    rw [List.any_eq_true] at h2
    obtain ⟨c, hc, hcf⟩ := h2
    rw [List.mem_range] at hr hc
    obtain ⟨hv, hs⟩ := (can_flip_iff b _ _ team).mp hcf
    obtain ⟨-, -, -, -, ht, hblank⟩ := (validateInput_iff b _ _ team).mp hv
    exact ⟨ht, r, hr, c, hc, hblank, hs⟩
  · rintro ⟨ht, r, hr, c, hc, hblank, hs⟩
    refine ⟨r, List.mem_range.mpr hr, ?_⟩
    rw [List.any_eq_true]
    refine ⟨c, List.mem_range.mpr hc, ?_⟩
    rw [can_flip_iff]
    refine ⟨(validateInput_iff b _ _ team).mpr ?_, hs⟩
    refine ⟨by positivity, by exact_mod_cast hr, by positivity, by exact_mod_cast hc,
      ht, hblank⟩

/-! ## C2: turn advancement after a successful placement -/

theorem findCapture_blank (g : Grid) (dr dc : Int) :
    ∀ (fuel : Nat) (p q : Int) (fo : Bool) (k : Nat),
      findCapture g Square.blank dr dc fuel p q fo k = none := by
  intro fuel
  induction fuel with
  | zero => intro p q fo k; rfl
  | succ fuel ih =>
    intro p q fo k
    rw [findCapture]
    by_cases hb : inBoundsRC g p q = true
    · rw [if_pos hb]
      simp only
      by_cases hblank : cellAt g p q = Square.blank
      · rw [if_pos hblank]
      · rw [if_neg hblank, if_neg hblank]
        exact ih _ _ _ _
    · rw [if_neg hb]

theorem validateFlipScore_blank (g : Grid) (r c : Int) :
    validateFlipScore g Square.blank r c = 0 := by
  unfold validateFlipScore flipSetList rayRun rayCapture
  simp [findCapture_blank]

theorem probe_can_move (b : Board) (s : Square) :
    can_move { b with turn := s } s = true ↔ specHasMove b.board s := by
  rw [can_move_iff_turn_and_move]
  simp

theorem probe_can_move_decide (b : Board) (s : Square) :
    can_move { b with turn := s } s = decide (specHasMove b.board s) := by
  by_cases hs : specHasMove b.board s
  · simp [hs, (probe_can_move b s).mpr hs]
  · rw [decide_eq_false hs, Bool.eq_false_iff]
    intro hx
    exact hs ((probe_can_move b s).mp hx)

theorem set_next_turn_correct (b : Board) (hteam : b.turn ≠ Square.blank) :
    (set_next_turn b).turn =
      if specHasMove b.board (oppSide b.turn) then oppSide b.turn
      else if specHasMove b.board b.turn then b.turn
      else Square.blank := by
  unfold set_next_turn
  simp only [probe_can_move_decide]
  by_cases hB : specHasMove b.board Square.black <;>
    by_cases hW : specHasMove b.board Square.white <;>
      cases ht : b.turn <;> simp_all [oppSide]

/-- C2: after every successful placement the turn field is the non-mover when
the non-mover has a legal move on the resulting grid, otherwise the mover when
the mover still has one, otherwise the terminal marker; consequently the turn
is the terminal marker exactly when neither side has a legal move. -/
theorem add_piece_turn_advance (b : Board) (r c : Int) (team : Square)
    (h : 0 < (add_piece b r c team).2) :
    (add_piece b r c team).1.turn =
      (if specHasMove (add_piece b r c team).1.board (oppSide team) then oppSide team
       else if specHasMove (add_piece b r c team).1.board team then team
       else Square.blank) ∧
      ((add_piece b r c team).1.turn = Square.blank ↔
        ¬specHasMove (add_piece b r c team).1.board Square.white ∧
          ¬specHasMove (add_piece b r c team).1.board Square.black) := by
  by_cases hv : validateInput b r c team = true
  · obtain ⟨-, -, -, -, ht, -⟩ := (validateInput_iff b r c team).mp hv
    by_cases hfl0 : (flipSetList b.board b.turn r c).length = 0
    · exfalso
      simp only [add_piece, if_pos hv, hfl0, if_pos rfl] at h
      exact Nat.lt_irrefl 0 h
    · have hteam : team ≠ Square.blank := by
        intro hbl
        apply hfl0
        have hz : validateFlipScore b.board b.turn r c = 0 := by
          rw [ht, hbl]
          exact validateFlipScore_blank b.board r c
        exact hz
      set g2 : Grid :=
        setCell (applyFlips b.board (flipSetList b.board b.turn r c)) r c b.turn
        with hg2
      have hadd : add_piece b r c team =
          (set_next_turn { board := g2, turn := b.turn },
            (flipSetList b.board b.turn r c).length) := by
        simp only [add_piece, if_pos hv, if_neg hfl0, hg2]
      rw [hadd]
      have hbv : ({ board := g2, turn := b.turn } : Board).turn = team := ht
      have hcor := set_next_turn_correct { board := g2, turn := b.turn }
        (by rw [hbv]; exact hteam)
      rw [hbv] at hcor
      have hbd : (set_next_turn { board := g2, turn := b.turn }).board = g2 := rfl
      simp only [hbd, hcor]
      cases team with
      | blank => exact absurd rfl hteam
      | white =>
        by_cases hO : specHasMove g2 (oppSide Square.white) <;>
          by_cases hM : specHasMove g2 Square.white <;>
          simp_all [oppSide]
      | black =>
        by_cases hO : specHasMove g2 (oppSide Square.black) <;>
          by_cases hM : specHasMove g2 Square.black <;>
          simp_all [oppSide]
  · exfalso
    simp only [add_piece, if_neg hv] at h
    exact Nat.lt_irrefl 0 h

/-- Witness for C2: white opens at (0, 2) on the fresh board; black (the
non-mover) has a reply, so the turn passes to black. -/
theorem add_piece_turn_advance_witness :
    0 < (add_piece init4 0 2 Square.white).2 ∧
      ((add_piece init4 0 2 Square.white).1.turn =
        (if specHasMove (add_piece init4 0 2 Square.white).1.board
            (oppSide Square.white) then oppSide Square.white
         else if specHasMove (add_piece init4 0 2 Square.white).1.board
            Square.white then Square.white
         else Square.blank) ∧
        ((add_piece init4 0 2 Square.white).1.turn = Square.blank ↔
          ¬specHasMove (add_piece init4 0 2 Square.white).1.board Square.white ∧
            ¬specHasMove (add_piece init4 0 2 Square.white).1.board Square.black)) :=
  ⟨by decide, add_piece_turn_advance init4 0 2 Square.white (by decide)⟩

/-! ## C7: winner determination -/

theorem sum_map_sub_int {α : Type} (l : List α) (f g : α → Int) :
    (l.map fun x => f x - g x).sum = (l.map f).sum - (l.map g).sum := by
  induction l with
  | nil => simp
  | cons a t ih =>
    simp only [List.map_cons, List.sum_cons, ih]
    ring

theorem whiteAdvantage_eq (b : Board) :
    whiteAdvantage b =
      (num_pieces b Square.white : Int) - (num_pieces b Square.black : Int) := by
  unfold whiteAdvantage num_pieces
  have hcast : ∀ team : Square,
      (((((List.range b.board.length).map fun r =>
        ((List.range b.board.length).map fun c =>
          if cellAt b.board (r : Int) (c : Int) = team then 1 else 0).sum).sum :
            Nat)) : Int) =
      ((List.range b.board.length).map fun r =>
        ((List.range b.board.length).map fun c =>
          if cellAt b.board (r : Int) (c : Int) = team then (1 : Int) else 0).sum).sum := by
    intro team
    rw [Nat.cast_list_sum, List.map_map]
    refine congrArg List.sum (List.map_congr_left fun r _ => ?_)
    simp only [Function.comp_apply]
    rw [Nat.cast_list_sum, List.map_map]
    refine congrArg List.sum (List.map_congr_left fun c _ => ?_)
    simp only [Function.comp_apply]
    split_ifs <;> simp
  rw [hcast Square.white, hcast Square.black, ← sum_map_sub_int]
  refine congrArg List.sum (List.map_congr_left fun r _ => ?_)
  rw [← sum_map_sub_int]
  refine congrArg List.sum (List.map_congr_left fun c _ => ?_)
  cases hcell : cellAt b.board (r : Int) (c : Int) <;> simp [hcell]

/-- C7: on a terminal board `who_won` compares the piece counts (strictly more
white gives white, strictly more black gives black, equality gives the
no-side marker); on a non-terminal board it returns `-1`, which is none of the
three side encodings. -/
theorem who_won_correct (b : Board) :
    (b.turn ≠ Square.blank → who_won b = -1 ∧ ∀ s : Square, squareCode s ≠ -1) ∧
    (b.turn = Square.blank → who_won b =
      if num_pieces b Square.black < num_pieces b Square.white then
        squareCode Square.white
      else if num_pieces b Square.white < num_pieces b Square.black then
        squareCode Square.black
      else squareCode Square.blank) := by
  constructor
  · intro h
    refine ⟨by unfold who_won; rw [if_pos h], ?_⟩
    intro s
    cases s <;> decide
  · intro h
    unfold who_won
    rw [if_neg (by simp [h])]
    have hadv := whiteAdvantage_eq b
    split_ifs <;> simp [squareCode] <;> omega

/-- Witness for C7: the played-out board is a 10 to 6 white win, and the fresh
board is not terminal so the call signals `-1`. -/
theorem who_won_correct_witness :
    (who_won wonBoard =
      if num_pieces wonBoard Square.black < num_pieces wonBoard Square.white then
        squareCode Square.white
      else if num_pieces wonBoard Square.white < num_pieces wonBoard Square.black then
        squareCode Square.black
      else squareCode Square.blank) ∧
      who_won init4 = -1 :=
  ⟨(who_won_correct wonBoard).2 (by decide),
    ((who_won_correct init4).1 (by decide)).1⟩

/-! ## C8: the move enumerator -/

theorem insertDesc_perm {α : Type} (key : α → Nat) (a : α) (l : List α) :
    List.Perm (insertDesc key a l) (a :: l) := by
  induction l with
  | nil => simp [insertDesc]
  | cons b t ih =>
    rw [insertDesc]
    split_ifs
    · exact List.Perm.refl _
    · exact (ih.cons b).trans (List.Perm.swap a b t)

theorem sortDesc_perm {α : Type} (key : α → Nat) (l : List α) :
    List.Perm (sortDesc key l) l := by
  induction l with
  | nil => exact List.Perm.refl _
  | cons a t ih =>
    rw [sortDesc]
    exact (insertDesc_perm key a (sortDesc key t)).trans (ih.cons a)

theorem sorted_insertDesc {α : Type} (key : α → Nat) (a : α) (l : List α)
    (h : l.Pairwise fun x y => key y ≤ key x) :
    (insertDesc key a l).Pairwise fun x y => key y ≤ key x := by
  induction l with
  | nil => simp [insertDesc]
  | cons b t ih =>
    obtain ⟨hb, ht⟩ := List.pairwise_cons.mp h
    rw [insertDesc]
    split_ifs with hcmp
    · refine List.pairwise_cons.mpr ⟨?_, h⟩
      intro y hy
      rcases List.mem_cons.mp hy with rfl | hy
      · exact hcmp
      · exact le_trans (hb y hy) hcmp
    · refine List.pairwise_cons.mpr ⟨?_, ih ht⟩
      intro y hy
      rcases List.mem_cons.mp ((insertDesc_perm key a t).mem_iff.mp hy) with rfl | hy2
      · omega
      · exact hb y hy2

theorem sorted_sortDesc {α : Type} (key : α → Nat) (l : List α) :
    (sortDesc key l).Pairwise fun x y => key y ≤ key x := by
  induction l with
  | nil => simp [sortDesc]
  | cons a t ih => exact sorted_insertDesc key a (sortDesc key t) ih

theorem filter_insertDesc {α : Type} (key : α → Nat) (s : Nat) (a : α)
    (l : List α) :
    (insertDesc key a l).filter (fun x => decide (key x = s)) =
      if key a = s then a :: l.filter (fun x => decide (key x = s))
      else l.filter (fun x => decide (key x = s)) := by
  induction l with
  | nil =>
    rw [insertDesc]
    by_cases hpa : key a = s <;> simp [hpa]
  | cons b t ih =>
    rw [insertDesc]
    by_cases hcmp : key b ≤ key a
    · rw [if_pos hcmp]
      by_cases hpa : key a = s <;> simp [List.filter_cons, hpa]
    · rw [if_neg hcmp, List.filter_cons, ih]
      push_neg at hcmp
      by_cases hpa : key a = s
      · have hpb : ¬(key b = s) := by omega
        simp [List.filter_cons, hpa, hpb]
      · by_cases hpb : key b = s <;> simp [List.filter_cons, hpa, hpb]

theorem filter_sortDesc {α : Type} (key : α → Nat) (s : Nat) (l : List α) :
    (sortDesc key l).filter (fun x => decide (key x = s)) =
      l.filter (fun x => decide (key x = s)) := by
  induction l with
  | nil => rfl
  | cons a t ih =>
    rw [sortDesc, filter_insertDesc, List.filter_cons, ih]
    by_cases hpa : key a = s <;> simp [hpa]

theorem rawMoves_mem (b : Board) (team : Square) (m : MoveT) :
    m ∈ rawMoves b team ↔
      ∃ r < get_size b, ∃ c < get_size b,
        m = ⟨(r : Int), (c : Int), flip_score b (r : Int) (c : Int) team⟩ ∧
          flip_score b (r : Int) (c : Int) team ≠ 0 := by
  unfold rawMoves
  rw [List.mem_flatMap]
  constructor
  · rintro ⟨r, hr, hm⟩
    rw [List.mem_filterMap] at hm
    obtain ⟨c, hc, hsome⟩ := hm
    rw [List.mem_range] at hr hc
    simp only at hsome
    split_ifs at hsome with hs
    · cases hsome
      exact ⟨r, hr, c, hc, rfl, hs⟩
  · rintro ⟨r, hr, c, hc, rfl, hne⟩
    refine ⟨r, List.mem_range.mpr hr, ?_⟩
    rw [List.mem_filterMap]
    refine ⟨c, List.mem_range.mpr hc, ?_⟩
    simp only
    rw [if_pos hne]

/-- C8: for any side, the move enumerator returns exactly the cells whose
capture score for that side is non-zero, each carrying that score, sorted by
score descending, and moves of equal score keep the row-major order in which
the scan discovered them (the order of `rawMoves`). -/
theorem get_moves_characterization (b : Board) (team : Square) :
    (∀ m : MoveT, m ∈ get_moves b team ↔
      ∃ r < get_size b, ∃ c < get_size b,
        m = ⟨(r : Int), (c : Int), flip_score b (r : Int) (c : Int) team⟩ ∧
          flip_score b (r : Int) (c : Int) team ≠ 0) ∧
    (get_moves b team).Pairwise (fun a b => b.pts ≤ a.pts) ∧
    (∀ s : Nat, (get_moves b team).filter (fun m => decide (m.pts = s)) =
      (rawMoves b team).filter (fun m => decide (m.pts = s))) := by
  refine ⟨?_, ?_, ?_⟩
  · intro m
    unfold get_moves
    rw [(sortDesc_perm MoveT.pts (rawMoves b team)).mem_iff]
    exact rawMoves_mem b team m
  · exact sorted_sortDesc MoveT.pts (rawMoves b team)
  · intro s
    exact filter_sortDesc MoveT.pts s (rawMoves b team)

/-! ## C1: the capture scan computes the spec capture set -/

theorem oppSide_ne_blank (team : Square) (h : team ≠ Square.blank) :
    oppSide team ≠ Square.blank := by
  cases team <;> simp_all [oppSide]

theorem oppSide_ne_self (team : Square) (h : team ≠ Square.blank) :
    oppSide team ≠ team := by
  cases team <;> simp_all [oppSide]

theorem eq_oppSide_of_ne (s team : Square) (hteam : team ≠ Square.blank)
    (h1 : s ≠ Square.blank) (h2 : s ≠ team) : s = oppSide team := by
  cases s <;> cases team <;> simp_all [oppSide]

theorem inBoundsRC_iff_inGrid (g : Grid) (hwf : GridWF g) (a b : Int) :
    inBoundsRC g a b = true ↔ inGrid g.length (a, b) := by
  unfold inBoundsRC inGrid
  cases g with
  | nil =>
    simp only [List.length_nil, List.headD_nil, Nat.cast_zero, Bool.and_eq_true,
      decide_eq_true_eq]
    omega
  | cons row rest =>
    have hrow : row.length = (row :: rest).length := hwf row (by simp)
    simp only [List.headD_cons, hrow]
    simp only [Bool.and_eq_true, decide_eq_true_eq]
    constructor
    · rintro ⟨⟨⟨h1, h2⟩, h3⟩, h4⟩
      exact ⟨h2, h1, h4, h3⟩
    · rintro ⟨h1, h2, h3, h4⟩
      exact ⟨⟨⟨h2, h1⟩, h4⟩, h3⟩

theorem findCapture_iff (g : Grid) (team : Square) (dr dc : Int)
    (hteam : team ≠ Square.blank) (r c : Int) :
    ∀ (fuel : Nat) (i : Nat) (fo : Bool) (K : Nat),
      (findCapture g team dr dc fuel (r + (i : Int) * dr) (c + (i : Int) * dc) fo i
          = some K ↔
        (i ≤ K ∧ K - i < fuel ∧ (fo = true ∨ i < K) ∧
          (∀ j, i ≤ j → j < K →
            inBoundsRC g (r + (j : Int) * dr) (c + (j : Int) * dc) = true ∧
              cellAt g (r + (j : Int) * dr) (c + (j : Int) * dc) = oppSide team) ∧
          inBoundsRC g (r + (K : Int) * dr) (c + (K : Int) * dc) = true ∧
          cellAt g (r + (K : Int) * dr) (c + (K : Int) * dc) = team)) := by
  intro fuel
  induction fuel with
  | zero =>
    intro i fo K
    rw [findCapture]
    constructor
    · intro h
      cases h
    · rintro ⟨-, h2, -⟩
      exact absurd h2 (by omega)
  | succ fuel ih =>
    intro i fo K
    rw [findCapture]
    by_cases hb : inBoundsRC g (r + (i : Int) * dr) (c + (i : Int) * dc) = true
    · rw [if_pos hb]
      simp only
      by_cases hblank : cellAt g (r + (i : Int) * dr) (c + (i : Int) * dc) =
          Square.blank
      · rw [if_pos hblank]
        constructor
        · intro h
          cases h
        · rintro ⟨h1, -, -, h4, -, h6⟩
          exfalso
          rcases Nat.lt_or_ge i K with hik | hik
          · have := (h4 i (Nat.le_refl i) hik).2
            rw [hblank] at this
            exact oppSide_ne_blank team hteam this.symm
          · have hKi : K = i := by omega
            rw [hKi] at h6
            rw [hblank] at h6
            exact hteam h6.symm
      · rw [if_neg hblank]
        by_cases hcell : cellAt g (r + (i : Int) * dr) (c + (i : Int) * dc) = team
        · rw [if_pos hcell]
          by_cases hfo : fo = true
          · rw [if_pos hfo]
            constructor
            · intro hs
              injection hs with hKi
              rw [← hKi]
              refine ⟨Nat.le_refl i, by omega, Or.inl hfo, ?_, hb, hcell⟩
              intro j hj1 hj2
              omega
            · rintro ⟨h1, -, -, h4, -, h6⟩
              rcases Nat.lt_or_ge i K with hik | hik
              · have := (h4 i (Nat.le_refl i) hik).2
                rw [hcell] at this
                exact absurd this.symm (oppSide_ne_self team hteam)
              · have hKi : K = i := by omega
                rw [hKi]
          · rw [if_neg hfo]
            constructor
            · intro h
              cases h
            · rintro ⟨h1, -, h3, h4, -, -⟩
              exfalso
              rcases h3 with h3 | h3
              · exact hfo h3
              · have := (h4 i (Nat.le_refl i) h3).2
                rw [hcell] at this
                exact absurd this.symm (oppSide_ne_self team hteam)
        · rw [if_neg hcell]
          have hopp : cellAt g (r + (i : Int) * dr) (c + (i : Int) * dc) =
              oppSide team := eq_oppSide_of_ne _ team hteam hblank hcell
          have hpos1 : r + (i : Int) * dr + dr = r + ((i + 1 : Nat) : Int) * dr := by
            push_cast
            ring
          have hpos2 : c + (i : Int) * dc + dc = c + ((i + 1 : Nat) : Int) * dc := by
            push_cast
            ring
          rw [hpos1, hpos2, ih (i + 1) true K]
          constructor
          · rintro ⟨h1, h2, -, h4, h5, h6⟩
            refine ⟨by omega, by omega, Or.inr (by omega), ?_, h5, h6⟩
            intro j hj1 hj2
            rcases Nat.eq_or_lt_of_le hj1 with rfl | hj1
            · exact ⟨hb, hopp⟩
            · exact h4 j hj1 hj2
          · rintro ⟨h1, h2, -, h4, h5, h6⟩
            have hKi : K ≠ i := by
              intro hKi
              rw [hKi] at h6
              rw [hopp] at h6
              exact absurd h6 (oppSide_ne_self team hteam)
            refine ⟨by omega, by omega, Or.inl rfl, ?_, h5, h6⟩
            intro j hj1 hj2
            exact h4 j (by omega) hj2
    · rw [if_neg hb]
      constructor
      · intro h
        cases h
      · rintro ⟨h1, -, -, h4, h5, -⟩
        exfalso
        rcases Nat.lt_or_ge i K with hik | hik
        · exact hb (h4 i (Nat.le_refl i) hik).1
        · have hKi : K = i := by omega
          rw [hKi] at h5
          exact hb h5

theorem rayCapture_iff (g : Grid) (team : Square) (dr dc : Int)
    (hteam : team ≠ Square.blank) (r c : Int) (K : Nat) :
    rayCapture g team r c dr dc = some K ↔
      (2 ≤ K ∧ K - 1 < rayFuel g ∧
        (∀ j, 1 ≤ j → j < K →
          inBoundsRC g (r + (j : Int) * dr) (c + (j : Int) * dc) = true ∧
            cellAt g (r + (j : Int) * dr) (c + (j : Int) * dc) = oppSide team) ∧
        inBoundsRC g (r + (K : Int) * dr) (c + (K : Int) * dc) = true ∧
        cellAt g (r + (K : Int) * dr) (c + (K : Int) * dc) = team) := by
  unfold rayCapture
  have h1r : r + dr = r + ((1 : Nat) : Int) * dr := by push_cast; ring
  have h1c : c + dc = c + ((1 : Nat) : Int) * dc := by push_cast; ring
  rw [h1r, h1c, findCapture_iff g team dr dc hteam r c (rayFuel g) 1 false K]
  constructor
  · rintro ⟨ha, hb2, hc2, hd, he, hf⟩
    rcases hc2 with hcc | hcc
    · cases hcc
    · exact ⟨by omega, by omega, hd, he, hf⟩
  · rintro ⟨ha, hb2, hd, he, hf⟩
    exact ⟨by omega, by omega, Or.inr (by omega), hd, he, hf⟩

theorem captureAt_iff (g : Grid) (team : Square) (hwf : GridWF g)
    (r c dr dc : Int) (K : Nat) :
    captureAt g team r c dr dc K ↔
      (2 ≤ K ∧
        (∀ j, 1 ≤ j → j < K →
          inBoundsRC g (r + (j : Int) * dr) (c + (j : Int) * dc) = true ∧
            cellAt g (r + (j : Int) * dr) (c + (j : Int) * dc) = oppSide team) ∧
        inBoundsRC g (r + (K : Int) * dr) (c + (K : Int) * dc) = true ∧
        cellAt g (r + (K : Int) * dr) (c + (K : Int) * dc) = team) := by
  unfold captureAt stepPos
  constructor
  · rintro ⟨h1, h2, h3, h4⟩
    refine ⟨h1, ?_, (inBoundsRC_iff_inGrid g hwf _ _).mpr h2, h3⟩
    intro j hj1 hj2
    obtain ⟨ha, hb2⟩ := h4 j hj2 hj1
    exact ⟨(inBoundsRC_iff_inGrid g hwf _ _).mpr ha, hb2⟩
  · rintro ⟨h1, h2, h3, h4⟩
    refine ⟨h1, (inBoundsRC_iff_inGrid g hwf _ _).mp h3, h4, ?_⟩
    intro j hj2 hj1
    obtain ⟨ha, hb2⟩ := h2 j hj1 hj2
    exact ⟨(inBoundsRC_iff_inGrid g hwf _ _).mp ha, hb2⟩

theorem stepK_bound (d : Int × Int) (hd : d ∈ dirList) (n : Nat) (r c : Int)
    (hr : inGrid n (r, c)) (K : Nat) (hK : inGrid n (stepPos r c d.1 d.2 K)) :
    K < n := by
  obtain ⟨hr1, hr2, hr3, hr4⟩ := hr
  obtain ⟨h1, h2, h3, h4⟩ := hK
  simp only [stepPos] at h1 h2 h3 h4
  fin_cases hd <;> simp only at h1 h2 h3 h4 <;> omega

theorem captureAt_unique (g : Grid) (team : Square) (hteam : team ≠ Square.blank)
    (r c dr dc : Int) (K1 K2 : Nat) (h1 : captureAt g team r c dr dc K1)
    (h2 : captureAt g team r c dr dc K2) : K1 = K2 := by
  have h1a := h1.1
  have h2a := h2.1
  by_contra hne
  rcases Nat.lt_or_ge K1 K2 with h | h
  · have hopp := (h2.2.2.2 K1 h (by omega)).2
    have hteam2 := h1.2.2.1
    rw [hteam2] at hopp
    exact oppSide_ne_self team hteam hopp.symm
  · have hlt : K2 < K1 := by omega
    have hopp := (h1.2.2.2 K2 hlt (by omega)).2
    have hteam2 := h2.2.2.1
    rw [hteam2] at hopp
    exact oppSide_ne_self team hteam hopp.symm

theorem find?_eq_some_of_unique (l : List Nat) (p : Nat → Bool) (a : Nat)
    (hmem : a ∈ l) (hpa : p a = true)
    (huniq : ∀ x ∈ l, p x = true → x = a) : l.find? p = some a := by
  induction l with
  | nil => cases hmem
  | cons h t ih =>
    by_cases hph : p h = true
    · rw [List.find?_cons_of_pos _ hph]
      rw [huniq h (by simp) hph]
    · rw [List.find?_cons_of_neg _ hph]
      rcases List.mem_cons.mp hmem with rfl | hmem2
      · exact absurd hpa hph
      · exact ih hmem2 fun x hx hpx => huniq x (by simp [hx]) hpx

theorem rayCapture_eq_specRayK (g : Grid) (team : Square) (d : Int × Int)
    (hwf : GridWF g) (hteam : team ≠ Square.blank) (hd : d ∈ dirList)
    (r c : Int) (hr : inGrid g.length (r, c)) :
    rayCapture g team r c d.1 d.2 = specRayK g team r c d.1 d.2 := by
  cases hc : rayCapture g team r c d.1 d.2 with
  | some K =>
    obtain ⟨h2K, hfuel, hj, hK, hcell⟩ :=
      (rayCapture_iff g team d.1 d.2 hteam r c K).mp hc
    have hcap : captureAt g team r c d.1 d.2 K := by
      rw [captureAt_iff g team hwf r c d.1 d.2 K]
      exact ⟨h2K, hj, hK, hcell⟩
    have hbound : K < g.length := stepK_bound d hd g.length r c hr K hcap.2.1
    refine Eq.symm ?_
    unfold specRayK
    refine find?_eq_some_of_unique _ _ K
      (List.mem_range.mpr (by unfold rayFuel; omega)) (decide_eq_true hcap) ?_
    intro x hx hpx
    exact captureAt_unique g team hteam r c d.1 d.2 x K
      (of_decide_eq_true hpx) hcap
  | none =>
    refine Eq.symm ?_
    unfold specRayK
    rw [List.find?_eq_none]
    intro x hx hpx
    have hcap : captureAt g team r c d.1 d.2 x := of_decide_eq_true hpx
    have hbound : x < g.length := stepK_bound d hd g.length r c hr x hcap.2.1
    obtain ⟨h2K, hj, hK, hcell⟩ := (captureAt_iff g team hwf r c d.1 d.2 x).mp hcap
    have := (rayCapture_iff g team d.1 d.2 hteam r c x).mpr
      ⟨h2K, by unfold rayFuel; omega, hj, hK, hcell⟩
    rw [hc] at this
    cases this

theorem rayRun_toFinset (g : Grid) (team : Square) (d : Int × Int)
    (hwf : GridWF g) (hteam : team ≠ Square.blank) (hd : d ∈ dirList)
    (r c : Int) (hr : inGrid g.length (r, c)) :
    (rayRun g team r c d.1 d.2).toFinset = specDirCapture g team r c d.1 d.2 := by
  unfold rayRun specDirCapture
  rw [← rayCapture_eq_specRayK g team d hwf hteam hd r c hr]
  cases hc : rayCapture g team r c d.1 d.2 with
  | none => simp
  | some K =>
    have h2K : 2 ≤ K := rayCapture_two_le g team r c d.1 d.2 K hc
    ext p
    simp only [List.mem_toFinset, List.mem_map, List.mem_range, Finset.mem_image,
      Finset.mem_Icc, stepPos]
    constructor
    · rintro ⟨j, hj, rfl⟩
      exact ⟨K - 1 - j, ⟨by omega, by omega⟩, rfl⟩
    · rintro ⟨i, ⟨hi1, hi2⟩, rfl⟩
      refine ⟨K - 1 - i, by omega, ?_⟩
      have hii : K - 1 - (K - 1 - i) = i := by omega
      rw [hii]

theorem toFinset_flatten {α : Type} [DecidableEq α] (ll : List (List α)) :
    ll.flatten.toFinset = (ll.map List.toFinset).foldr (· ∪ ·) ∅ := by
  induction ll with
  | nil => simp
  | cons x rest ih =>
    simp only [List.flatten_cons, List.toFinset_append, List.map_cons,
      List.foldr_cons, ih]

theorem validateFlipScore_eq_spec (g : Grid) (team : Square) (hwf : GridWF g)
    (hteam : team ≠ Square.blank) (r c : Int) (hr : inGrid g.length (r, c)) :
    validateFlipScore g team r c = (specCaptureSet g team r c).card := by
  unfold validateFlipScore flipSetList specCaptureSet
  rw [← List.card_toFinset]
  congr 1
  rw [toFinset_flatten, List.map_map]
  refine congrArg (List.foldr (· ∪ ·) ∅) ?_
  refine List.map_congr_left fun d hd => ?_
  simp only [Function.comp_apply]
  exact rayRun_toFinset g team d hwf hteam hd r c hr

/-- C1: for a well-formed board and an actual side, `flip_score` on an
in-bounds empty cell with that side to move returns the cardinality of the
union of the eight directional capture runs (each the run of opposing cells
strictly between the cell and the first same-side cell, cells reachable from
two directions counted once); it returns 0 whenever the cell is out of
bounds, occupied, or the side is not the side to move. -/
theorem flip_score_matches_spec (b : Board) (r c : Int) (team : Square)
    (hwf : b.WF) (hteam : team ≠ Square.blank) :
    (inGrid b.board.length (r, c) → cellAt b.board r c = Square.blank →
      b.turn = team →
      flip_score b r c team = (specCaptureSet b.board team r c).card) ∧
    ((¬inGrid b.board.length (r, c) ∨ cellAt b.board r c ≠ Square.blank ∨
        b.turn ≠ team) → flip_score b r c team = 0) := by
  constructor
  · intro hin hblank hturn
    have hv : validateInput b r c team = true := by
      rw [validateInput_iff]
      obtain ⟨h1, h2, h3, h4⟩ := hin
      exact ⟨h1, h2, h3, h4, hturn, hblank⟩
    unfold flip_score
    rw [if_pos hv]
    exact validateFlipScore_eq_spec b.board team hwf hteam r c hin
  · intro hbad
    have hv : ¬(validateInput b r c team = true) := by
      rw [validateInput_iff]
      rintro ⟨h1, h2, h3, h4, h5, h6⟩
      rcases hbad with hbad | hbad | hbad
      · exact hbad ⟨h1, h2, h3, h4⟩
      · exact hbad h6
      · exact hbad h5
    unfold flip_score
    rw [if_neg hv]

/-- Witness for C1: white opening at (0, 2) on the fresh board captures the
one-cell set containing (1, 2); the out-of-range cell (5, 5) scores 0. -/
theorem flip_score_matches_spec_witness :
    init4.WF ∧ Square.white ≠ Square.blank ∧
      flip_score init4 0 2 Square.white =
        (specCaptureSet init4.board Square.white 0 2).card ∧
      flip_score init4 5 5 Square.white = 0 :=
  ⟨by decide, by decide,
    (flip_score_matches_spec init4 0 2 Square.white (by decide) (by decide)).1
      (by decide) (by decide) (by decide),
    (flip_score_matches_spec init4 5 5 Square.white (by decide) (by decide)).2
      (Or.inl (by decide))⟩

/-! ## C4: terminal branches and the shared depth variable in the search -/

theorem applyWhites_stop (fuel : Nat) (b : Board) (nml : Nat) (hf : fuel ≠ 0)
    (h : b.turn ≠ Square.white) : applyWhites fuel b nml = some (b, nml) := by
  cases fuel with
  | zero => exact absurd rfl hf
  | succ fuel => rw [applyWhites, if_neg h]

theorem applyWhites_blank_stable (fuel : Nat) (b : Board) (nml : Nat)
    (b3 : Board) (nml2 : Nat) (h : applyWhites fuel b nml = some (b3, nml2))
    (hb : b.turn = Square.blank) : b3 = b := by
  cases fuel with
  | zero => exact absurd h (by rw [applyWhites]; exact Option.noConfusion)
  | succ fuel =>
    rw [applyWhites_stop (fuel + 1) b nml (by omega) (by rw [hb]; intro hc; cases hc)]
      at h
    simp only [Option.some.injEq, Prod.mk.injEq] at h
    exact h.1.symm

theorem applyWhites_nml (fuel : Nat) :
    ∀ (b : Board) (nml : Nat) (b3 : Board) (nml2 : Nat),
      (b.turn = Square.blank → nml = 1) →
      applyWhites fuel b nml = some (b3, nml2) →
      nml2 = if b3.turn = Square.blank then 1 else nml := by
  induction fuel with
  | zero =>
    intro b nml b3 nml2 hpre h
    exact absurd h (by rw [applyWhites]; exact Option.noConfusion)
  | succ fuel ih =>
    intro b nml b3 nml2 hpre h
    rw [applyWhites] at h
    by_cases hw : b.turn = Square.white
    · rw [if_pos hw] at h
      cases hgm : get_moves b Square.white with
      | nil =>
        rw [hgm] at h
        exact absurd h Option.noConfusion
      | cons wm rest =>
        rw [hgm] at h
        simp only at h
        have hres := ih _ _ _ _ (fun hb => by rw [hb]; simp) h
        by_cases h3 : b3.turn = Square.blank
        · rw [if_pos h3] at hres ⊢
          exact hres
        · rw [if_neg h3] at hres ⊢
          by_cases h2 : (add_piece b wm.r wm.c Square.white).1.turn = Square.blank
          · exfalso
            have hb3 := applyWhites_blank_stable fuel _ _ _ _ h h2
            rw [hb3] at h3
            exact h3 h2
          · rw [if_neg h2] at hres
            exact hres
    · rw [if_neg hw] at h
      simp only [Option.some.injEq, Prod.mk.injEq] at h
      obtain ⟨hb3, hn⟩ := h
      rw [← hb3, ← hn]
      by_cases hb : b.turn = Square.blank
      · rw [if_pos hb]
        exact hpre hb
      · rw [if_neg hb]

theorem goCandidates_flag_aux
    (recurse : Board → Nat → MoveT → Option (Option MoveT × Nat))
    (b : Board) (nml : Nat) :
    ∀ (l : List MoveT) (fl : Bool),
      goCandidates recurse b (if fl then 1 else nml) l =
        (goCandidatesFlag recurse b nml fl l).map fun p =>
          (if p.1 then 1 else nml, p.2) := by
  intro l
  induction l with
  | nil => intro fl; rfl
  | cons m rest ih =>
    intro fl
    simp only [goCandidates, goCandidatesFlag]
    cases hA : applyWhites (get_squares_left (branchStep b m) + 1) (branchStep b m)
        (if (branchStep b m).turn = Square.blank then 1 else if fl then 1 else nml) with
    | none => rfl
    | some p =>
      obtain ⟨b3, nml2⟩ := p
      have hform : nml2 = if (fl || decide (b3.turn = Square.blank)) then 1 else nml := by
        have hnml2 := applyWhites_nml _ _ _ _ _ (fun hb => by rw [if_pos hb]) hA
        by_cases h3 : b3.turn = Square.blank
        · rw [if_pos h3] at hnml2
          rw [hnml2, h3]
          simp
        · rw [if_neg h3] at hnml2
          by_cases h2 : (branchStep b m).turn = Square.blank
          · exfalso
            have hb3 := applyWhites_blank_stable _ _ _ _ _ hA h2
            rw [hb3] at h3
            exact h3 h2
          · rw [if_neg h2] at hnml2
            rw [hnml2, decide_eq_false h3, Bool.or_false]
      cases hR : recurse b3 (nml2 - 1) m with
      | none =>
        simp only [hR]
        rfl
      | some q =>
        obtain ⟨q1, q2⟩ := q
        simp only [hR]
        rw [hform, ih (fl || decide (b3.turn = Square.blank))]
        cases hG : goCandidatesFlag recurse b nml
            (fl || decide (b3.turn = Square.blank)) rest with
        | none => rfl
        | some pr =>
          obtain ⟨flF, acc⟩ := pr
          rfl

/-- C4 as amended: in the faithful candidate loop of `strong_move_recurse`,
the remaining-depth variable threads through the candidates: candidates before
the first one whose branch (candidate move plus greedy white replies) reaches
a terminal board start from the level's original depth, and from that first
terminal branch onward every subsequent candidate starts from depth 1 and is
recursed at depth 0 — the reduction is not local to the terminal branch. -/
theorem strong_sibling_depth_threading
    (recurse : Board → Nat → MoveT → Option (Option MoveT × Nat))
    (b : Board) (nml : Nat) (l : List MoveT) :
    goCandidates recurse b nml l =
      (goCandidatesFlag recurse b nml false l).map fun p =>
        (if p.1 then 1 else nml, p.2) :=
  goCandidates_flag_aux recurse b nml l false

/-- C4 counterexample: on `lateBoard` with two plies remaining, the faithful
search and the claim's sibling-independent reading disagree (the first
candidate branch ends the game, so the faithful loop searches the remaining
candidates at depth 0 and reports a different piece count). -/
theorem strong_sibling_depth_leak_cex :
    strongRecAux 3 lateBoard 2 none ≠ strongRecSpecAux 3 lateBoard 2 none := by
  decide

/-! ## C6: weighted-thirds sampling with a zero bottom weight -/

theorem cumFrom_length (ws : List Nat) : ∀ t, (cumFrom t ws).length = ws.length := by
  induction ws with
  | nil => intro t; rfl
  | cons w rest ih => intro t; simp [cumFrom, ih]

theorem cumFrom_le_mem (ws : List Nat) :
    ∀ t v, v ∈ cumFrom t ws → t ≤ v := by
  induction ws with
  | nil => intro t v hv; cases hv
  | cons w rest ih =>
    intro t v hv
    rcases List.mem_cons.mp hv with rfl | hv
    · omega
    · have := ih (t + w) v hv
      omega

theorem cumFrom_pairwise (ws : List Nat) :
    ∀ t, (cumFrom t ws).Pairwise (· ≤ ·) := by
  induction ws with
  | nil => intro t; exact List.Pairwise.nil
  | cons w rest ih =>
    intro t
    refine List.pairwise_cons.mpr ⟨?_, ih (t + w)⟩
    exact fun v hv => cumFrom_le_mem rest (t + w) v hv

theorem cumFrom_getD (ws : List Nat) :
    ∀ t i, i < ws.length →
      (cumFrom t ws).getD i 0 = t + (ws.take (i + 1)).sum := by
  induction ws with
  | nil => intro t i h; cases h
  | cons w rest ih =>
    intro t i h
    cases i with
    | zero => simp [cumFrom]
    | succ i =>
      have hlt : i < rest.length := by simpa using h
      simp only [cumFrom, List.getD_cons_succ, List.take_succ_cons, List.sum_cons]
      rw [ih (t + w) i hlt]
      omega

theorem take_succ_sum_getD (l : List Nat) :
    ∀ i, i < l.length →
      (l.take (i + 1)).sum = (l.take i).sum + l.getD i 0 := by
  induction l with
  | nil => intro i h; cases h
  | cons a t ih =>
    intro i h
    cases i with
    | zero => simp
    | succ i =>
      have hlt : i < t.length := by simpa using h
      simp only [List.take_succ_cons, List.sum_cons, List.getD_cons_succ]
      rw [ih i hlt]
      omega

theorem countP_sorted_iff (x : ℚ) :
    ∀ (l : List Nat), l.Pairwise (· ≤ ·) →
      ∀ i, i < l.length →
        ((i < l.countP fun (v : Nat) => decide ((v : ℚ) ≤ x)) ↔
          ((l.getD i 0 : ℚ) ≤ x)) := by
  intro l
  induction l with
  | nil => intro _ i h; cases h
  | cons a t ih =>
    intro hs i h
    obtain ⟨ha, ht⟩ := List.pairwise_cons.mp hs
    by_cases hP : ((a : ℚ) ≤ x)
    · rw [List.countP_cons_of_pos _ _ (by simpa using hP)]
      cases i with
      | zero => simpa using hP
      | succ i =>
        have hlt : i < t.length := by simpa using h
        simp only [List.getD_cons_succ]
        rw [Nat.add_lt_add_iff_right]
        exact ih ht i hlt
    · have hcnt : (a :: t).countP (fun (v : Nat) => decide ((v : ℚ) ≤ x)) = 0 := by
        rw [List.countP_eq_zero]
        intro v hv
        rcases List.mem_cons.mp hv with rfl | hv
        · simpa using hP
        · have hav : (a : ℚ) ≤ (v : ℚ) := by exact_mod_cast ha v hv
          simp only [decide_eq_true_eq]
          intro hvx
          exact hP (le_trans hav hvx)
      rw [hcnt]
      simp only [Nat.not_lt_zero, false_iff]
      cases i with
      | zero => simpa using hP
      | succ i =>
        have hlt : i < t.length := by simpa using h
        simp only [List.getD_cons_succ]
        intro hvx
        have hmem : t.getD i 0 ∈ t := by
          rw [List.getD_eq_getElem t 0 hlt]
          exact List.getElem_mem hlt
        have hav : (a : ℚ) ≤ (t.getD i 0 : ℚ) := by exact_mod_cast ha _ hmem
        exact hP (le_trans hav hvx)

theorem weightScores_pts_getD (ms : List MoveT) (w0 w1 w2 j : Nat)
    (h : j < ms.length) :
    ((weightScores ms w0 w1 w2).map MoveT.pts).getD j 0 =
      (ms.getD j ⟨0, 0, 0⟩).pts * thirdWeight ms.length j w0 w1 w2 := by
  unfold weightScores
  have hm : j < (ms.mapIdx fun i m =>
      { m with pts := m.pts * thirdWeight ms.length i w0 w1 w2 }).length := by
    rw [List.length_mapIdx]
    exact h
  have hmap : j < ((ms.mapIdx fun i m =>
      { m with pts := m.pts * thirdWeight ms.length i w0 w1 w2 }).map
        MoveT.pts).length := by
    rw [List.length_map]
    exact hm
  rw [List.getD_eq_getElem _ 0 hmap, List.getElem_map, List.getElem_mapIdx,
    List.getD_eq_getElem _ _ h]

theorem bisect_selects_positive (ws : List Nat) (x : ℚ)
    (hne : ws.length ≠ 0) (hx0 : 0 ≤ x) (hx : x < (ws.sum : ℚ)) :
    bisectRight (cumFrom 0 ws) x < ws.length ∧
      0 < ws.getD (bisectRight (cumFrom 0 ws) x) 0 := by
  unfold bisectRight
  have hlenc : (cumFrom 0 ws).length = ws.length := cumFrom_length ws 0
  have hmono := cumFrom_pairwise ws 0
  have hjle : (cumFrom 0 ws).countP (fun (v : Nat) => decide ((v : ℚ) ≤ x)) ≤
      ws.length := le_trans (List.countP_le_length _) (le_of_eq hlenc)
  have hlast : (cumFrom 0 ws).getD (ws.length - 1) 0 = ws.sum := by
    rw [cumFrom_getD ws 0 (ws.length - 1) (by omega)]
    have h1 : ws.length - 1 + 1 = ws.length := by omega
    rw [h1, List.take_length]
    omega
  have hiff := countP_sorted_iff x (cumFrom 0 ws) hmono
  have hjlt : (cumFrom 0 ws).countP (fun (v : Nat) => decide ((v : ℚ) ≤ x)) <
      ws.length := by
    by_contra hcon
    push_neg at hcon
    have h1 := (hiff (ws.length - 1) (by omega)).mp (by omega)
    rw [hlast] at h1
    exact absurd (lt_of_le_of_lt h1 hx) (lt_irrefl _)
  refine ⟨hjlt, ?_⟩
  have hgt : ¬(((cumFrom 0 ws).getD
      ((cumFrom 0 ws).countP fun (v : Nat) => decide ((v : ℚ) ≤ x)) 0 : ℚ) ≤ x) := by
    intro hle
    exact absurd ((hiff _ (by omega)).mpr hle) (lt_irrefl _)
  have htake : (((ws.take ((cumFrom 0 ws).countP
      fun (v : Nat) => decide ((v : ℚ) ≤ x))).sum : ℚ)) ≤ x := by
    rcases hcase : (cumFrom 0 ws).countP (fun (v : Nat) => decide ((v : ℚ) ≤ x)) with
      _ | i
    · simpa using hx0
    · have h1 := (hiff i (by omega)).mp (by omega)
      rw [cumFrom_getD ws 0 i (by omega)] at h1
      simpa using h1
  rw [cumFrom_getD ws 0 _ (by omega),
    take_succ_sum_getD ws _ (by omega)] at hgt
  by_contra hz
  push_neg at hz
  have hz0 : ws.getD ((cumFrom 0 ws).countP
      fun (v : Nat) => decide ((v : ℚ) ≤ x)) 0 = 0 := by omega
  rw [hz0] at hgt
  apply hgt
  push_cast
  simpa using htake

theorem moderate_bottom_third_cex :
    (∀ m ∈ exMoves, 1 ≤ m.pts) ∧
      exMoves.Pairwise (fun a b => b.pts ≤ a.pts) ∧ 3 ≤ exMoves.length ∧
      (0 : ℚ) ≤ 26 ∧
      (26 : ℚ) < (((weightScores exMoves 5 2 0).map MoveT.pts).sum : ℚ) ∧
      exMoves.length - exMoves.length / 3 ≤ wmtIndex exMoves 5 2 0 26 := by
  refine ⟨by decide, by decide, by decide, by norm_num, ?_, ?_⟩
  · have h27 : ((weightScores exMoves 5 2 0).map MoveT.pts).sum = 27 := by decide
    rw [h27]
    norm_num
  · decide

theorem moderate_zero_group_never_selected (ms : List MoveT) (x : ℚ)
    (hpos : ∀ m ∈ ms, 1 ≤ m.pts) (hlen : 3 ≤ ms.length)
    (hsort : ms.Pairwise fun a b => b.pts ≤ a.pts)
    (hx0 : 0 ≤ x)
    (hx : x < (((weightScores ms 5 2 0).map MoveT.pts).sum : ℚ)) :
    wmtIndex ms 5 2 0 x < ms.length ∧
      3 * wmtIndex ms 5 2 0 x ≤ 2 * ms.length := by
  have hlenw : ((weightScores ms 5 2 0).map MoveT.pts).length = ms.length := by
    rw [List.length_map]
    unfold weightScores
    exact List.length_mapIdx
  obtain ⟨hjlt, hpos2⟩ := bisect_selects_positive
    ((weightScores ms 5 2 0).map MoveT.pts) x (by omega) hx0 hx
  have hwmt : wmtIndex ms 5 2 0 x =
      bisectRight (cumFrom 0 ((weightScores ms 5 2 0).map MoveT.pts)) x := by
    simp only [wmtIndex]
    rw [if_neg (by omega)]
  rw [hwmt]
  refine ⟨by omega, ?_⟩
  by_contra hbad
  push_neg at hbad
  rw [weightScores_pts_getD ms 5 2 0 _ (by omega)] at hpos2
  have hzero : thirdWeight ms.length
      (bisectRight (cumFrom 0 ((weightScores ms 5 2 0).map MoveT.pts)) x) 5 2 0 = 0 := by
    unfold thirdWeight
    rw [if_neg (by omega), if_neg (by omega)]
  rw [hzero, Nat.mul_zero] at hpos2
  exact absurd hpos2 (lt_irrefl 0)

theorem moderate_zero_group_never_selected_witness :
    wmtIndex exMoves 5 2 0 (1 / 2) < exMoves.length ∧
      3 * wmtIndex exMoves 5 2 0 (1 / 2) ≤ 2 * exMoves.length :=
  moderate_zero_group_never_selected exMoves (1 / 2) (by decide) (by decide)
    (by decide) (by norm_num)
    (by
      have h27 : ((weightScores exMoves 5 2 0).map MoveT.pts).sum = 27 := by decide
      rw [h27]
      norm_num)

/-- Witness for C9: on the fresh board white is to move, so every strategy
fails. -/
theorem strategies_require_black_turn_witness :
    init4.turn ≠ Square.black ∧
      (get_moves init4 Square.black = [] ∧ weak_move init4 0 = none ∧
        novice_move init4 (1 / 2) = none ∧ moderate_move init4 (1 / 2) = none ∧
        strong_move init4 = none) :=
  ⟨by decide, strategies_require_black_turn init4 (by decide) 0 (1 / 2) (1 / 2)⟩

end Reversi
